import Mathlib

/-!
Verification of the LLM-generator caching and batching subsystem
(`fms_sdg/generators/llm.py` and `fms_sdg/generators/vllm.py`).

The Python code is shallowly embedded: JSON values are an inductive type,
Python dicts are association lists with first-match lookup and in-place
override, SHA-256 is implemented concretely over byte lists, and the
caching dispatcher (`CachingLM.__getattr__`'s inner `fn`) is a pure
function from an operation name, an oracle for the underlying generator,
a store and a request list to results plus an updated store.
-/

set_option maxRecDepth 100000
set_option maxHeartbeats 4000000

/-! ## JSON values (Python objects appearing in request args/kwargs)

Mirrors the values `json.dumps` receives in `hash_args`: strings, ints,
floats (modelled as rationals, see `jdump`), booleans, None, lists and
string-keyed dicts (as ordered association lists, like Python dicts). -/

inductive J where
  | null : J
  | jbool : Bool → J
  | jint : Int → J
  | jnum : ℚ → J
  | jstr : String → J
  | jarr : List J → J
  | jobj : List (String × J) → J

/-! ## Python json.dumps string escaping (ensure_ascii=True, the default)

`"` and `\` get two-character escapes, the control characters BS, TAB, LF,
FF, CR get their short escapes, the other controls and every non-ASCII
character become `\uXXXX` (lowercase hex), astral code points become a
surrogate pair. Characters 0x20–0x7e other than `"` and `\` stand for
themselves. -/

def hexDig (n : Nat) : Char :=
  if n < 10 then Char.ofNat (48 + n) else Char.ofNat (87 + n)

def hex4 (n : Nat) : List Char :=
  [hexDig (n / 4096 % 16), hexDig (n / 256 % 16), hexDig (n / 16 % 16), hexDig (n % 16)]

def escChar (c : Char) : List Char :=
  if c = '"' then ['\\', '"']
  else if c = '\\' then ['\\', '\\']
  else if c = Char.ofNat 8 then ['\\', 'b']
  else if c = Char.ofNat 9 then ['\\', 't']
  else if c = Char.ofNat 10 then ['\\', 'n']
  else if c = Char.ofNat 12 then ['\\', 'f']
  else if c = Char.ofNat 13 then ['\\', 'r']
  else if c.toNat < 32 then '\\' :: 'u' :: hex4 c.toNat
  else if c.toNat < 127 then [c]
  else if c.toNat < 65536 then '\\' :: 'u' :: hex4 c.toNat
  else
    ('\\' :: 'u' :: hex4 (55296 + (c.toNat - 65536) / 1024)) ++
    ('\\' :: 'u' :: hex4 (56320 + (c.toNat - 65536) % 1024))

def escapeL : List Char → List Char
  | [] => []
  | c :: cs => escChar c ++ escapeL cs

/-! ## Python json.dumps with default separators (item `", "`, key `": "`)

`jdump (J.jnum q)`: Python would print the float repr; the claims under
verification never serialize a non-integer number, so the rational is
printed with Lean's `Rat` repr, which agrees with Python on integers
written without a fractional part only up to formatting. No theorem below
depends on the serialization of `J.jnum`. -/

mutual
def jdump : J → List Char
  | J.null => ['n', 'u', 'l', 'l']
  | J.jbool true => ['t', 'r', 'u', 'e']
  | J.jbool false => ['f', 'a', 'l', 's', 'e']
  | J.jint n => (toString n).data
  | J.jnum q => (toString q).data
  | J.jstr s => '"' :: (escapeL s.data ++ ['"'])
  | J.jarr l => '[' :: (jdumpList l ++ [']'])
  | J.jobj o => '\x7b' :: (jdumpObj o ++ ['\x7d'])

def jdumpList : List J → List Char
  | [] => []
  | [x] => jdump x
  | x :: y :: rest => jdump x ++ ',' :: ' ' :: jdumpList (y :: rest)

def jdumpObj : List (String × J) → List Char
  | [] => []
  | [(k, v)] => '"' :: escapeL k.data ++ '"' :: ':' :: ' ' :: jdump v
  | (k, v) :: e :: rest =>
      '"' :: escapeL k.data ++ '"' :: ':' :: ' ' :: jdump v ++ ',' :: ' ' :: jdumpObj (e :: rest)
end

/-! ## UTF-8 and SHA-256 (for `dat.encode("utf-8")` and `hashlib.sha256`) -/

def utf8Bytes (n : Nat) : List Nat :=
  if n < 128 then [n]
  else if n < 2048 then [192 + n / 64, 128 + n % 64]
  else if n < 65536 then [224 + n / 4096, 128 + n / 64 % 64, 128 + n % 64]
  else [240 + n / 262144, 128 + n / 4096 % 64, 128 + n / 64 % 64, 128 + n % 64]

def utf8Enc (l : List Char) : List Nat :=
  l.flatMap (fun c => utf8Bytes c.toNat)

def M32 : Nat := 4294967296

def rotr32 (n x : Nat) : Nat := ((x >>> n) ||| (x <<< (32 - n))) % M32

def bSig0 (x : Nat) : Nat := (rotr32 2 x) ^^^ (rotr32 13 x) ^^^ (rotr32 22 x)
def bSig1 (x : Nat) : Nat := (rotr32 6 x) ^^^ (rotr32 11 x) ^^^ (rotr32 25 x)
def sSig0 (x : Nat) : Nat := (rotr32 7 x) ^^^ (rotr32 18 x) ^^^ (x >>> 3)
def sSig1 (x : Nat) : Nat := (rotr32 17 x) ^^^ (rotr32 19 x) ^^^ (x >>> 10)

def chf (x y z : Nat) : Nat := (x &&& y) ^^^ ((4294967295 ^^^ x) &&& z)
def majf (x y z : Nat) : Nat := (x &&& y) ^^^ (x &&& z) ^^^ (y &&& z)

def sha256K : List Nat :=
  -- the FIPS 180-4 round constants, in decimal
  [1116352408, 1899447441, 3049323471, 3921009573, 961987163, 1508970993, 2453635748, 2870763221,
   3624381080, 310598401, 607225278, 1426881987, 1925078388, 2162078206, 2614888103, 3248222580,
   3835390401, 4022224774, 264347078, 604807628, 770255983, 1249150122, 1555081692, 1996064986,
   2554220882, 2821834349, 2952996808, 3210313671, 3336571891, 3584528711, 113926993, 338241895,
   666307205, 773529912, 1294757372, 1396182291, 1695183700, 1986661051, 2177026350, 2456956037,
   2730485921, 2820302411, 3259730800, 3345764771, 3516065817, 3600352804, 4094571909, 275423344,
   430227734, 506948616, 659060556, 883997877, 958139571, 1322822218, 1537002063, 1747873779,
   1955562222, 2024104815, 2227730452, 2361852424, 2428436474, 2756734187, 3204031479, 3329325298]

def sha256H0 : List Nat :=
  -- the FIPS 180-4 initial hash words, in decimal
  [1779033703, 3144134277, 1013904242, 2773480762, 1359893119, 2600822924, 528734635, 1541459225]

def lenBytesBE (n : Nat) : List Nat :=
  [n >>> 56 &&& 255, n >>> 48 &&& 255, n >>> 40 &&& 255, n >>> 32 &&& 255,
   n >>> 24 &&& 255, n >>> 16 &&& 255, n >>> 8 &&& 255, n &&& 255]

def padMsg (msg : List Nat) : List Nat :=
  msg ++ 128 :: List.replicate ((119 - (msg.length % 64)) % 64) 0 ++ lenBytesBE (msg.length * 8)

def toWords : List Nat → List Nat
  | b0 :: b1 :: b2 :: b3 :: rest =>
      ((b0 <<< 24) ||| (b1 <<< 16) ||| (b2 <<< 8) ||| b3) :: toWords rest
  | _ => []

def toBlocksF : Nat → List Nat → List (List Nat)
  | 0, _ => []
  | _, [] => []
  | fuel + 1, l => l.take 64 :: toBlocksF fuel (l.drop 64)

def toBlocks (l : List Nat) : List (List Nat) := toBlocksF l.length l

def schedStep (w : List Nat) : List Nat :=
  w ++ [(sSig1 (w.getD (w.length - 2) 0) + w.getD (w.length - 7) 0 +
         sSig0 (w.getD (w.length - 15) 0) + w.getD (w.length - 16) 0) % M32]

def schedule (w : List Nat) : List Nat :=
  (List.range 48).foldl (fun acc _ => schedStep acc) w

def roundStep (w : List Nat) (st : List Nat) (t : Nat) : List Nat :=
  match st with
  | [a, b, c, d, e, f, g, h] =>
    let t1 := (h + bSig1 e + chf e f g + sha256K.getD t 0 + w.getD t 0) % M32
    let t2 := (bSig0 a + majf a b c) % M32
    [(t1 + t2) % M32, a, b, c, (d + t1) % M32, e, f, g]
  | _ => st

def compressBlock (h : List Nat) (block : List Nat) : List Nat :=
  let w := schedule (toWords block)
  let st := (List.range 64).foldl (fun st t => roundStep w st t) h
  List.zipWith (fun x y => (x + y) % M32) h st

def sha256Words (msg : List Nat) : List Nat :=
  (toBlocks (padMsg msg)).foldl compressBlock sha256H0

def hex8 (n : Nat) : List Char := hex4 (n >>> 16) ++ hex4 (n &&& 65535)

def sha256hex (msg : List Nat) : String :=
  String.mk ((sha256Words msg).flatMap hex8)

/-! ## Requests and the cache key (`hash_args` in llm.py)

An `Instance` carries positional args and keyword args; its `result` slot
is represented separately (dispatch returns the final `result` values in
request order). `hash_args` is
`sha256(json.dumps([attr] + [request.args, request.kwargs]).encode("utf-8")).hexdigest()`. -/

structure Inst where
  args : List J
  kwargs : List (String × J)

def dat (attr : String) (r : Inst) : List Char :=
  jdump (J.jarr [J.jstr attr, J.jarr r.args, J.jobj r.kwargs])

def hash_args (attr : String) (r : Inst) : String :=
  sha256hex (utf8Enc (dat attr r))


/-! ## Injectivity of the escaping

`firstChar` parses the first escaped unit of an escaped string (without
recursion); `firstChar (escChar c ++ t) = some c` makes `escapeL`
injective, which is what the key-derivation claims need about the
operation-name slot of the hash input. -/

def hexVal (c : Char) : Option Nat :=
  if 48 ≤ c.toNat ∧ c.toNat ≤ 57 then some (c.toNat - 48)
  else if 97 ≤ c.toNat ∧ c.toNat ≤ 102 then some (c.toNat - 87)
  else none

def hexVal4 (a b c d : Char) : Option Nat :=
  match hexVal a, hexVal b, hexVal c, hexVal d with
  | some x1, some x2, some x3, some x4 => some (x1 * 4096 + x2 * 256 + x3 * 16 + x4)
  | _, _, _, _ => none

def firstLow (n : Nat) : List Char → Option Char
  | s1 :: s2 :: b1 :: b2 :: b3 :: b4 :: _ =>
    if s1 = '\\' ∧ s2 = 'u' then
      match hexVal4 b1 b2 b3 b4 with
      | some m =>
        if 56320 ≤ m ∧ m < 57344 then
          some (Char.ofNat (65536 + (n - 55296) * 1024 + (m - 56320)))
        else none
      | none => none
    else none
  | _ => none

def firstU : List Char → Option Char
  | a1 :: a2 :: a3 :: a4 :: rest3 =>
    match hexVal4 a1 a2 a3 a4 with
    | some n =>
      if 55296 ≤ n ∧ n < 56320 then firstLow n rest3 else some (Char.ofNat n)
    | none => none
  | _ => none

def firstSlash : List Char → Option Char
  | [] => none
  | x :: rest2 =>
    if x = '"' then some '"'
    else if x = '\\' then some '\\'
    else if x = 'b' then some (Char.ofNat 8)
    else if x = 't' then some (Char.ofNat 9)
    else if x = 'n' then some (Char.ofNat 10)
    else if x = 'f' then some (Char.ofNat 12)
    else if x = 'r' then some (Char.ofNat 13)
    else if x = 'u' then firstU rest2
    else none

def firstChar : List Char → Option Char
  | [] => none
  | c :: rest => if c = '\\' then firstSlash rest else some c

theorem char_range (c : Char) : c.toNat < 55296 ∨ (57343 < c.toNat ∧ c.toNat < 1114112) :=
  c.valid

theorem hexVal_hexDig : ∀ x : Fin 16, hexVal (hexDig x.val) = some x.val := by decide

theorem hexVal_hexDig_mod (n : Nat) : hexVal (hexDig (n % 16)) = some (n % 16) :=
  hexVal_hexDig ⟨n % 16, Nat.mod_lt _ (by omega)⟩

theorem hexVal4_digits (m : Nat) (hm : m < 65536) :
    hexVal4 (hexDig (m / 4096 % 16)) (hexDig (m / 256 % 16))
      (hexDig (m / 16 % 16)) (hexDig (m % 16)) = some m := by
  simp only [hexVal4, hexVal_hexDig_mod]
  have hrec : m / 4096 % 16 * 4096 + m / 256 % 16 * 256 + m / 16 % 16 * 16 + m % 16 = m := by
    omega
  rw [hrec]

theorem firstU_digits (m : Nat) (hm : m < 65536) (rest : List Char) :
    firstU (hexDig (m / 4096 % 16) :: hexDig (m / 256 % 16) :: hexDig (m / 16 % 16) ::
      hexDig (m % 16) :: rest) =
    if 55296 ≤ m ∧ m < 56320 then firstLow m rest else some (Char.ofNat m) := by
  simp only [firstU, hexVal4_digits m hm]

theorem firstLow_digits (n m : Nat) (hm : m < 65536) (rest : List Char) :
    firstLow n ('\\' :: 'u' :: hexDig (m / 4096 % 16) :: hexDig (m / 256 % 16) ::
      hexDig (m / 16 % 16) :: hexDig (m % 16) :: rest) =
    if 56320 ≤ m ∧ m < 57344 then
      some (Char.ofNat (65536 + (n - 55296) * 1024 + (m - 56320)))
    else none := by
  simp only [firstLow, hexVal4_digits m hm]
  rw [if_pos (by simp)]

theorem firstChar_slash (rest : List Char) : firstChar ('\\' :: rest) = firstSlash rest := by
  simp [firstChar]

theorem firstChar_plain (c : Char) (h : ¬ c = '\\') (rest : List Char) :
    firstChar (c :: rest) = some c := by
  simp [firstChar, h]

theorem firstSlash_u (rest : List Char) : firstSlash ('u' :: rest) = firstU rest := by
  simp [firstSlash]

theorem firstChar_escChar (c : Char) (t : List Char) :
    firstChar (escChar c ++ t) = some c := by
  unfold escChar
  split_ifs with h1 h2 h3 h4 h5 h6 h7 h8 h9 h10
  · subst h1; simp [firstChar, firstSlash]
  · subst h2; simp [firstChar, firstSlash]
  · subst h3; simp [firstChar, firstSlash]
  · subst h4; simp [firstChar, firstSlash]
  · subst h5; simp [firstChar, firstSlash]
  · subst h6; simp [firstChar, firstSlash]
  · subst h7; simp [firstChar, firstSlash]
  · -- other control characters: single \uXXXX, value < 32
    simp only [hex4, List.cons_append, List.nil_append]
    rw [firstChar_slash, firstSlash_u, firstU_digits c.toNat (by omega)]
    rw [if_neg (by omega), Char.ofNat_toNat]
  · -- printable ASCII: the character stands for itself
    simp only [List.cons_append, List.nil_append]
    exact firstChar_plain c h2 _
  · -- BMP beyond ASCII: single \uXXXX
    simp only [hex4, List.cons_append, List.nil_append]
    rw [firstChar_slash, firstSlash_u, firstU_digits c.toNat h10]
    rw [if_neg (by rcases char_range c with hv | hv <;> omega), Char.ofNat_toNat]
  · -- astral plane: surrogate pair
    have hb : c.toNat < 1114112 := by
      rcases char_range c with hv | hv
      · omega
      · exact hv.2
    simp only [hex4, List.cons_append, List.append_assoc, List.nil_append]
    rw [firstChar_slash, firstSlash_u, firstU_digits (55296 + (c.toNat - 65536) / 1024)
      (by omega)]
    rw [if_pos (by omega)]
    rw [firstLow_digits (55296 + (c.toNat - 65536) / 1024) (56320 + (c.toNat - 65536) % 1024)
      (by omega)]
    rw [if_pos (by omega)]
    have hc : 65536 + (55296 + (c.toNat - 65536) / 1024 - 55296) * 1024 +
        (56320 + (c.toNat - 65536) % 1024 - 56320) = c.toNat := by omega
    rw [hc, Char.ofNat_toNat]

theorem escChar_ne_nil (c : Char) : escChar c ≠ [] := by
  unfold escChar
  split_ifs <;> simp

theorem escapeL_inj (a : List Char) : ∀ b, escapeL a = escapeL b → a = b := by
  induction a with
  | nil =>
    intro b h
    cases b with
    | nil => rfl
    | cons c cs =>
      exfalso
      have h2 : escChar c ++ escapeL cs = [] := h.symm
      rcases List.append_eq_nil.mp h2 with ⟨h3, _⟩
      exact escChar_ne_nil c h3
  | cons c₁ cs₁ ih =>
    intro b h
    cases b with
    | nil =>
      exfalso
      have h2 : escChar c₁ ++ escapeL cs₁ = [] := h
      rcases List.append_eq_nil.mp h2 with ⟨h3, _⟩
      exact escChar_ne_nil c₁ h3
    | cons c₂ cs₂ =>
      have h0 : escChar c₁ ++ escapeL cs₁ = escChar c₂ ++ escapeL cs₂ := h
      have hc : some c₁ = some c₂ := by
        rw [← firstChar_escChar c₁ (escapeL cs₁), ← firstChar_escChar c₂ (escapeL cs₂), h0]
      cases hc
      have ht : escapeL cs₁ = escapeL cs₂ := List.append_cancel_left h0
      rw [ih _ ht]


theorem string_data_inj (s t : String) (h : s.data = t.data) : s = t := by
  cases s; cases t; exact congrArg String.mk h

/-- The serialized hash input determines the operation name: distinct
operation names give distinct `dat` strings for the same request. -/
theorem dat_attr_inj (attr₁ attr₂ : String) (r : Inst) (h : attr₁ ≠ attr₂) :
    dat attr₁ r ≠ dat attr₂ r := by
  intro hd
  apply h
  simp only [dat, jdump, jdumpList, List.cons_append, List.nil_append,
    List.append_assoc] at hd
  rcases hd with hd
  injection hd with h1 hd
  injection hd with h2 hd
  have hl := congrArg List.length hd
  simp only [List.length_append, List.length_cons] at hl
  have hlen : (escapeL attr₁.data).length = (escapeL attr₂.data).length := by omega
  have he := (List.append_inj hd hlen).1
  exact string_data_inj _ _ (escapeL_inj _ _ he)

/-! ## The caching dispatcher (`CachingLM.__getattr__`'s inner `fn`)

The store is the SQLite dict: an association list from key to stored
value; a stored Python `None` is `Option.none` inside the entry, so an
entry is `String × Option V`. The underlying generator is an oracle
`Inst → V`: invoking the generator on the remaining requests sets each of
their result slots to the oracle value. `dispatch` returns `none` when the
`assert ob is not None` on a cache read fails, otherwise the final result
slots (in input order) and the updated store. -/

def isExempt (attr : String) (r : Inst) : Bool :=
  attr == "generate_batch" &&
    (match List.lookup "decoding_method" r.kwargs with
     | some (J.jstr s) => s == "sample"
     | _ => false)

def storeSet {V : Type} : List (String × Option V) → String → Option V →
    List (String × Option V)
  | [], k, v => [(k, v)]
  | (k0, v0) :: rest, k, v =>
    if k0 == k then (k0, v) :: rest else (k0, v0) :: storeSet rest k v

def classify {V : Type} (attr : String) (store : List (String × Option V)) :
    List Inst → Option (List (Option V) × List Inst)
  | [] => some ([], [])
  | r :: rs =>
    if isExempt attr r then
      (classify attr store rs).map (fun p => (none :: p.1, r :: p.2))
    else
      match List.lookup (hash_args attr r) store with
      | some none => none
      | some (some v) => (classify attr store rs).map (fun p => (some v :: p.1, p.2))
      | none => (classify attr store rs).map (fun p => (none :: p.1, r :: p.2))

def fillRes {V : Type} : List (Option V) → List V → List (Option V)
  | [], _ => []
  | some v :: res, execs => some v :: fillRes res execs
  | none :: res, e :: execs => some e :: fillRes res execs
  | none :: res, [] => none :: fillRes res []

def writeNew {V : Type} (attr : String) (pairs : List (Inst × V))
    (store : List (String × Option V)) : List (String × Option V) :=
  pairs.foldl (fun st pr => storeSet st (hash_args attr pr.1) (some pr.2)) store

def dispatch {V : Type} (attr : String) (oracle : Inst → V)
    (store : List (String × Option V)) (reqs : List Inst) :
    Option (List (Option V) × List (String × Option V)) :=
  match classify attr store reqs with
  | none => none
  | some (res, rem) =>
    some (fillRes res (rem.map oracle), writeNew attr (rem.zip (rem.map oracle)) store)

/-- The value the dispatcher is supposed to leave in slot `i`: the stored
cache value when the request is a non-exempt hit, otherwise the freshly
computed one. -/
def expectedResult {V : Type} (attr : String) (oracle : Inst → V)
    (store : List (String × Option V)) (r : Inst) : V :=
  if isExempt attr r then oracle r
  else
    match List.lookup (hash_args attr r) store with
    | some (some v) => v
    | _ => oracle r

theorem classify_fill {V : Type} (attr : String) (oracle : Inst → V)
    (store : List (String × Option V)) :
    ∀ reqs res rem, classify attr store reqs = some (res, rem) →
      fillRes res (rem.map oracle) =
        reqs.map (fun r => some (expectedResult attr oracle store r)) := by
  intro reqs
  induction reqs with
  | nil =>
    intro res rem h
    simp only [classify, Option.some.injEq, Prod.mk.injEq] at h
    rcases h with ⟨rfl, rfl⟩
    rfl
  | cons r rs ih =>
    intro res rem h
    by_cases hex : isExempt attr r
    · simp only [classify, hex, if_pos] at h
      rcases Option.map_eq_some'.mp h with ⟨⟨res', rem'⟩, hcl, hmk⟩
      injection hmk with hres hrem
      subst hres; subst hrem
      simp only [List.map_cons, fillRes]
      rw [ih res' rem' hcl]
      congr 1
      simp [expectedResult, hex]
    · simp only [classify, hex, if_neg, Bool.false_eq_true, if_false] at h
      cases hl : List.lookup (hash_args attr r) store with
      | none =>
        rw [hl] at h
        rcases Option.map_eq_some'.mp h with ⟨⟨res', rem'⟩, hcl, hmk⟩
        injection hmk with hres hrem
        subst hres; subst hrem
        simp only [List.map_cons, fillRes]
        rw [ih res' rem' hcl]
        congr 1
        simp [expectedResult, hex, hl]
      | some ob =>
        cases ob with
        | none => rw [hl] at h; exact absurd h (by simp)
        | some v =>
          rw [hl] at h
          rcases Option.map_eq_some'.mp h with ⟨⟨res', rem'⟩, hcl, hmk⟩
          injection hmk with hres hrem
          subst hres; subst hrem
          simp only [List.map_cons, fillRes]
          rw [ih res' rem' hcl]
          congr 1
          simp [expectedResult, hex, hl]

theorem fillRes_nil {V : Type} : ∀ res : List (Option V), fillRes res [] = res
  | [] => rfl
  | some _ :: res => by rw [fillRes, fillRes_nil res]
  | none :: res => by rw [fillRes, fillRes_nil res]

theorem classify_all_cached {V : Type} (attr : String) (store : List (String × Option V)) :
    ∀ reqs, (∀ r ∈ reqs, isExempt attr r = false) →
      (∀ r ∈ reqs, ∃ v, List.lookup (hash_args attr r) store = some (some v)) →
      classify attr store reqs =
        some (reqs.map (fun r => Option.join (List.lookup (hash_args attr r) store)), []) := by
  intro reqs
  induction reqs with
  | nil => intro _ _; rfl
  | cons r rs ih =>
    intro hne hc
    obtain ⟨v, hv⟩ := hc r (by simp)
    have hex := hne r (by simp)
    simp only [classify, hex, Bool.false_eq_true, if_false, hv]
    rw [ih (fun x hx => hne x (by simp [hx])) (fun x hx => hc x (by simp [hx]))]
    simp [hv]

theorem classify_bad {V : Type} (attr : String) (store : List (String × Option V)) :
    ∀ reqs r, r ∈ reqs → isExempt attr r = false →
      List.lookup (hash_args attr r) store = some none →
      classify attr store reqs = none := by
  intro reqs
  induction reqs with
  | nil => intro r h; exact absurd h (List.not_mem_nil r)
  | cons x rs ih =>
    intro r hmem hex hl
    rcases List.mem_cons.mp hmem with rfl | hmem'
    · simp [classify, hex, hl]
    · by_cases hx : isExempt attr x
      · simp [classify, hx, ih r hmem' hex hl]
      · simp only [classify, hx, Bool.false_eq_true, if_false]
        cases hlx : List.lookup (hash_args attr x) store with
        | none => simp [ih r hmem' hex hl]
        | some ob =>
          cases ob with
          | none => rfl
          | some v => simp [ih r hmem' hex hl]

/-- C1: when a dispatch call of the caching dispatcher returns, every
request slot is set, and position `i` of the final results holds the
stored cache value when request `i` was resolved from the cache and
otherwise the value freshly computed for request `i` by the underlying
generator, in the original input order (the merge fills the k-th
unresolved position with the k-th executed result). -/
theorem dispatch_merges_by_index_in_order {V : Type} (attr : String) (oracle : Inst → V)
    (store : List (String × Option V)) (reqs : List Inst) (res : List (Option V))
    (st' : List (String × Option V))
    (h : dispatch attr oracle store reqs = some (res, st')) :
    res = reqs.map (fun r => some (expectedResult attr oracle store r)) := by
  unfold dispatch at h
  cases hc : classify attr store reqs with
  | none => rw [hc] at h; cases h
  | some p =>
    rw [hc] at h
    obtain ⟨res0, rem⟩ := p
    injection h with h'
    injection h' with hres hst
    rw [← hres]
    exact classify_fill attr oracle store reqs res0 rem hc

def rPlain : Inst := ⟨[J.jstr "ctx"], []⟩

def rSample : Inst := ⟨[J.jstr "ctx"], [("decoding_method", J.jstr "sample")]⟩

theorem dispatch_merges_by_index_in_order_witness :
    [some "res1"] =
      [rPlain].map (fun r =>
        some (expectedResult "generate_batch" (fun _ => "res1")
          ([] : List (String × Option String)) r)) :=
  dispatch_merges_by_index_in_order "generate_batch" (fun _ => "res1") [] [rPlain]
    [some "res1"] [(hash_args "generate_batch" rPlain, some "res1")] rfl

theorem lookup_storeSet_self {V : Type} (k : String) (v : Option V) :
    ∀ st, List.lookup k (storeSet st k v) = some v := by
  intro st
  induction st with
  | nil => simp [storeSet, List.lookup]
  | cons kv rest ih =>
    obtain ⟨k0, v0⟩ := kv
    by_cases h : (k0 == k) = true
    · have hk : k0 = k := by simpa using h
      simp [storeSet, h, List.lookup, hk]
    · have hk : ¬ (k == k0) = true := by
        intro hc
        exact h (by simpa using (by simpa using hc : k = k0).symm)
      simp [storeSet, h, List.lookup, hk, ih]

theorem lookup_storeSet_other {V : Type} (k k' : String) (v : Option V) (hne : k' ≠ k) :
    ∀ st, List.lookup k' (storeSet st k v) = List.lookup k' st := by
  intro st
  have hne' : (k' == k) = false := by simpa using hne
  induction st with
  | nil => simp [storeSet, List.lookup, hne']
  | cons kv rest ih =>
    obtain ⟨k0, v0⟩ := kv
    by_cases h : (k0 == k) = true
    · have hk : k0 = k := by simpa using h
      subst hk
      have h2 : ¬ (k' == k0) = true := by simpa using hne
      simp [storeSet, List.lookup, h2]
    · simp only [storeSet, h, if_false, Bool.false_eq_true]
      by_cases h2 : (k' == k0) = true
      · simp [List.lookup, h2]
      · simp [List.lookup, h2, ih]

theorem classify_rem_mem {V : Type} (attr : String) (store : List (String × Option V)) :
    ∀ reqs res rem, classify attr store reqs = some (res, rem) → ∀ r ∈ rem, r ∈ reqs := by
  intro reqs
  induction reqs with
  | nil =>
    intro res rem h r hr
    simp only [classify, Option.some.injEq, Prod.mk.injEq] at h
    rcases h with ⟨h1, h2⟩
    subst h2
    cases hr
  | cons q rs ih =>
    intro res rem h r hr
    by_cases hex : isExempt attr q
    · simp only [classify, hex, if_pos] at h
      rcases Option.map_eq_some'.mp h with ⟨⟨res', rem'⟩, hcl, hmk⟩
      injection hmk with h1 h2
      subst h2
      rcases List.mem_cons.mp hr with rfl | hr'
      · exact List.mem_cons_self _ _
      · exact List.mem_cons_of_mem _ (ih res' rem' hcl r hr')
    · simp only [classify, hex, Bool.false_eq_true, if_false] at h
      cases hl : List.lookup (hash_args attr q) store with
      | none =>
        rw [hl] at h
        rcases Option.map_eq_some'.mp h with ⟨⟨res', rem'⟩, hcl, hmk⟩
        injection hmk with h1 h2
        subst h2
        rcases List.mem_cons.mp hr with rfl | hr'
        · exact List.mem_cons_self _ _
        · exact List.mem_cons_of_mem _ (ih res' rem' hcl r hr')
      | some ob =>
        cases ob with
        | none => rw [hl] at h; cases h
        | some v =>
          rw [hl] at h
          rcases Option.map_eq_some'.mp h with ⟨⟨res', rem'⟩, hcl, hmk⟩
          injection hmk with h1 h2
          subst h2
          exact List.mem_cons_of_mem q (ih res' rem' hcl r hr)

theorem classify_exempt_in_rem {V : Type} (attr : String)
    (store : List (String × Option V)) :
    ∀ reqs res rem (i : Nat) (hi : i < reqs.length),
      classify attr store reqs = some (res, rem) →
      isExempt attr reqs[i] = true → reqs[i] ∈ rem := by
  intro reqs
  induction reqs with
  | nil => intro res rem i hi; simp at hi
  | cons q rs ih =>
    intro res rem i hi h hex
    cases i with
    | zero =>
      simp only [List.getElem_cons_zero] at hex ⊢
      simp only [classify, hex, if_pos] at h
      rcases Option.map_eq_some'.mp h with ⟨⟨res', rem'⟩, hcl, hmk⟩
      injection hmk with h1 h2
      subst h2
      exact List.mem_cons_self q rem'
    | succ j =>
      have hj : j < rs.length := by
        simp only [List.length_cons] at hi
        omega
      simp only [List.getElem_cons_succ] at hex ⊢
      by_cases hq : isExempt attr q
      · simp only [classify, hq, if_pos] at h
        rcases Option.map_eq_some'.mp h with ⟨⟨res', rem'⟩, hcl, hmk⟩
        injection hmk with h1 h2
        subst h2
        exact List.mem_cons_of_mem q (ih res' rem' j hj hcl hex)
      · simp only [classify, hq, Bool.false_eq_true, if_false] at h
        cases hl : List.lookup (hash_args attr q) store with
        | none =>
          rw [hl] at h
          rcases Option.map_eq_some'.mp h with ⟨⟨res', rem'⟩, hcl, hmk⟩
          injection hmk with h1 h2
          subst h2
          exact List.mem_cons_of_mem q (ih res' rem' j hj hcl hex)
        | some ob =>
          cases ob with
          | none => rw [hl] at h; cases h
          | some v =>
            rw [hl] at h
            rcases Option.map_eq_some'.mp h with ⟨⟨res', rem'⟩, hcl, hmk⟩
            injection hmk with h1 h2
            subst h2
            exact ih res' rem' j hj hcl hex

theorem writeNew_cons {V : Type} (attr : String) (pr : Inst × V) (rest : List (Inst × V))
    (store : List (String × Option V)) :
    writeNew attr (pr :: rest) store =
      writeNew attr rest (storeSet store (hash_args attr pr.1) (some pr.2)) := rfl

theorem lookup_writeNew_none {V : Type} (attr : String) (k : String) :
    ∀ (pairs : List (Inst × V)) store, (∀ pr ∈ pairs, hash_args attr pr.1 ≠ k) →
      List.lookup k (writeNew attr pairs store) = List.lookup k store := by
  intro pairs
  induction pairs with
  | nil => intro store _; rfl
  | cons pr rest ih =>
    intro store hno
    rw [writeNew_cons, ih _ (fun x hx => hno x (by simp [hx]))]
    exact lookup_storeSet_other _ _ _ (Ne.symm (hno pr (by simp))) store

theorem lookup_writeNew_hit {V : Type} (attr : String) (k : String) (v0 : V) :
    ∀ (pairs : List (Inst × V)) store,
      (∃ pr ∈ pairs, hash_args attr pr.1 = k) →
      (∀ pr ∈ pairs, hash_args attr pr.1 = k → pr.2 = v0) →
      List.lookup k (writeNew attr pairs store) = some (some v0) := by
  intro pairs
  induction pairs with
  | nil =>
    intro store hex _
    rcases hex with ⟨pr, hmem, _⟩
    cases hmem
  | cons pr rest ih =>
    intro store hex hall
    by_cases hrest : ∃ q ∈ rest, hash_args attr q.1 = k
    · rw [writeNew_cons]
      exact ih _ hrest (fun x hx hk => hall x (by simp [hx]) hk)
    · have hhead : hash_args attr pr.1 = k := by
        rcases hex with ⟨q, hq, hk⟩
        rcases List.mem_cons.mp hq with rfl | hq'
        · exact hk
        · exact absurd ⟨q, hq', hk⟩ hrest
      have hval : pr.2 = v0 := hall pr (by simp) hhead
      rw [writeNew_cons,
        lookup_writeNew_none attr k rest _ (fun q hq hk => hrest ⟨q, hq, hk⟩)]
      rw [hhead, hval]
      exact lookup_storeSet_self k (some v0) store

theorem zip_self_map {α β : Type} (f : α → β) :
    ∀ l : List α, l.zip (l.map f) = l.map (fun a => (a, f a)) := by
  intro l
  induction l with
  | nil => rfl
  | cons x xs ih => simp [ih]

/-- C2 (amended): in every dispatch call, a request whose kwargs indicate
stochastic sampling is never read from the cache — whatever the store
contains at its key, its result slot receives the freshly computed value —
but, contrary to the original claim, after execution that freshly computed
result IS written into the store at its key (the write-back loop iterates
over all remaining requests, exempted ones included). The `hkey`
hypothesis says requests sharing this request's key compute the same
result: content-equal duplicates satisfy it trivially, and requests of
distinct content share a key only on a SHA-256 collision. -/
theorem sampling_exempt_executed_not_read_but_written {V : Type} (attr : String)
    (oracle : Inst → V) (store : List (String × Option V)) (reqs : List Inst)
    (res : List (Option V)) (st' : List (String × Option V)) (i : Nat)
    (hi : i < reqs.length) (hex : isExempt attr reqs[i] = true)
    (hkey : ∀ r' ∈ reqs, hash_args attr r' = hash_args attr reqs[i] →
      oracle r' = oracle reqs[i])
    (h : dispatch attr oracle store reqs = some (res, st')) :
    res[i]? = some (some (oracle reqs[i])) ∧
    List.lookup (hash_args attr reqs[i]) st' = some (some (oracle reqs[i])) := by
  unfold dispatch at h
  cases hc : classify attr store reqs with
  | none => rw [hc] at h; cases h
  | some p =>
    rw [hc] at h
    obtain ⟨res0, rem⟩ := p
    injection h with h'
    injection h' with hres hst
    constructor
    · rw [← hres, classify_fill attr oracle store reqs res0 rem hc]
      rw [List.getElem?_map, List.getElem?_eq_getElem hi]
      simp [expectedResult, hex]
    · rw [← hst]
      have hmem : reqs[i] ∈ rem := classify_exempt_in_rem attr store reqs res0 rem i hi hc hex
      rw [zip_self_map oracle rem]
      apply lookup_writeNew_hit
      · exact ⟨(reqs[i], oracle reqs[i]), List.mem_map_of_mem _ hmem, rfl⟩
      · intro pr hpr hk
        rcases List.mem_map.mp hpr with ⟨r', hr', rfl⟩
        exact hkey r' (classify_rem_mem attr store reqs res0 rem hc r' hr') hk

theorem sampling_exempt_executed_not_read_but_written_witness :
    ([some "out", some "out"] : List (Option String))[1]? = some (some "out") ∧
    List.lookup (hash_args "generate_batch" rSample)
      (storeSet [(hash_args "generate_batch" rPlain, some "out")]
        (hash_args "generate_batch" rSample) (some "out")) = some (some "out") :=
  sampling_exempt_executed_not_read_but_written "generate_batch" (fun _ => "out")
    [] [rPlain, rSample] [some "out", some "out"]
    (storeSet [(hash_args "generate_batch" rPlain, some "out")]
      (hash_args "generate_batch" rSample) (some "out"))
    1 (by decide) (by decide) (fun _ _ _ => rfl) rfl

/-- C2 counterexample: dispatching a single stochastic-sampling request on
an empty store leaves the store CHANGED at the request's key (the freshly
computed result is written there), contradicting the claim that such a
request leaves the store unchanged at its key. -/
theorem sampling_request_written_to_store :
    (dispatch "generate_batch" (fun _ => "out") ([] : List (String × Option String))
        [rSample]).map
      (fun p => List.lookup (hash_args "generate_batch" rSample) p.2) =
      some (some (some "out")) ∧
    List.lookup (hash_args "generate_batch" rSample)
      ([] : List (String × Option String)) = none := by
  constructor
  · have hc : classify "generate_batch" ([] : List (String × Option String)) [rSample] =
        some ([none], [rSample]) := by
      simp [classify, isExempt, rSample, List.lookup]
    simp only [dispatch, hc, writeNew, fillRes, List.map, List.zip_cons_cons,
      List.zip_nil_right, List.foldl_cons, List.foldl_nil, storeSet, Option.map_some']
    simp [List.lookup]
  · rfl

/-- C4: when every request of a dispatch call is already present in the
store under the dispatched operation (none exempted as stochastic), the
underlying engine is not invoked at all — the outcome is the same for
every oracle, which the statement exhibits by not mentioning the oracle in
the right-hand side — each result equals the value stored for its key, and
the store is unchanged. -/
theorem dispatch_all_cached_skips_engine {V : Type} (attr : String) (oracle : Inst → V)
    (store : List (String × Option V)) (reqs : List Inst)
    (hne : ∀ r ∈ reqs, isExempt attr r = false)
    (hc : ∀ r ∈ reqs, ∃ v, List.lookup (hash_args attr r) store = some (some v)) :
    dispatch attr oracle store reqs =
      some (reqs.map (fun r => Option.join (List.lookup (hash_args attr r) store)), store) := by
  unfold dispatch
  rw [classify_all_cached attr store reqs hne hc]
  simp [fillRes_nil, writeNew]

theorem dispatch_all_cached_skips_engine_witness :
    dispatch "generate_batch" (fun _ => "fresh")
        [(hash_args "generate_batch" rPlain, some "cached")] [rPlain] =
      some ([Option.join (List.lookup (hash_args "generate_batch" rPlain)
        [(hash_args "generate_batch" rPlain, some "cached")])],
        [(hash_args "generate_batch" rPlain, some "cached")]) :=
  dispatch_all_cached_skips_engine "generate_batch" (fun _ => "fresh")
    [(hash_args "generate_batch" rPlain, some "cached")] [rPlain]
    (by intro r hr; rcases List.mem_singleton.mp hr with rfl; rfl)
    (by
      intro r hr
      rcases List.mem_singleton.mp hr with rfl
      exact ⟨"cached", by simp [List.lookup]⟩)

/-- C9: a cache entry that exists but stores an empty value (Python
`None`) makes the dispatch call fail with the fatal assertion (modelled as
`none`) instead of recomputing or healing the entry, while a well-formed
stored value is returned as-is with the store untouched. -/
theorem dispatch_cache_anomaly_fatal {V : Type} (attr : String) (oracle : Inst → V)
    (store : List (String × Option V)) (reqs : List Inst) (r : Inst) (v : V) :
    (r ∈ reqs → isExempt attr r = false →
      List.lookup (hash_args attr r) store = some none →
      dispatch attr oracle store reqs = none) ∧
    (isExempt attr r = false → List.lookup (hash_args attr r) store = some (some v) →
      dispatch attr oracle store [r] = some ([some v], store)) := by
  constructor
  · intro h1 h2 h3
    unfold dispatch
    rw [classify_bad attr store reqs r h1 h2 h3]
  · intro h1 h2
    unfold dispatch
    have hcl : classify attr store [r] = some ([some v], []) := by
      simp [classify, h1, h2]
    rw [hcl]
    simp [fillRes, fillRes_nil, writeNew]

theorem dispatch_cache_anomaly_fatal_witness :
    dispatch "generate_batch" (fun _ => "x")
        [(hash_args "generate_batch" rPlain, (none : Option String))] [rPlain] = none ∧
    dispatch "generate_batch" (fun _ => "x")
        [(hash_args "generate_batch" rPlain, some "well")] [rPlain] =
      some ([some "well"], [(hash_args "generate_batch" rPlain, some "well")]) :=
  ⟨(dispatch_cache_anomaly_fatal "generate_batch" (fun _ => "x")
      [(hash_args "generate_batch" rPlain, (none : Option String))] [rPlain] rPlain "x").1
      (List.mem_singleton.mpr rfl) rfl (by simp [List.lookup]),
   (dispatch_cache_anomaly_fatal "generate_batch" (fun _ => "x")
      [(hash_args "generate_batch" rPlain, some "well")] [rPlain] rPlain "well").2
      rfl (by simp [List.lookup])⟩

/-- C3 (amended): the cache key is a deterministic function of the
operation name and the request's args and kwargs taken as ordered data —
equal contents in the same kwargs order give identical keys, regardless of
object identity — and for the same request two distinct operation names
always yield distinct serialized hash inputs (hence distinct keys
whenever SHA-256 does not collide on them). Kwargs that are equal as
mappings but inserted in different orders may yield different keys (see
the counterexample). -/
theorem hash_args_content_determined (attr₁ attr₂ : String) (r₁ r₂ : Inst) :
    (attr₁ = attr₂ → r₁.args = r₂.args → r₁.kwargs = r₂.kwargs →
      hash_args attr₁ r₁ = hash_args attr₂ r₂) ∧
    (attr₁ ≠ attr₂ → dat attr₁ r₁ ≠ dat attr₂ r₁) := by
  constructor
  · intro ha hargs hkw
    obtain ⟨a₁, k₁⟩ := r₁
    obtain ⟨a₂, k₂⟩ := r₂
    simp only at hargs hkw
    rw [ha, hargs, hkw]
  · exact dat_attr_inj attr₁ attr₂ r₁

theorem hash_args_content_determined_witness :
    hash_args "generate_batch" rPlain = hash_args "generate_batch" rPlain ∧
    dat "generate_batch" rPlain ≠ dat "loglikelihood" rPlain :=
  ⟨(hash_args_content_determined "generate_batch" "generate_batch" rPlain rPlain).1
      rfl rfl rfl,
   (hash_args_content_determined "generate_batch" "loglikelihood" rPlain rPlain).2
      (by decide)⟩

/-- C3 counterexample: two requests whose kwargs are equal as mappings
(same key-value pairs, checked by lookup on both keys) but inserted in the
opposite order receive different cache keys, because `json.dumps`
serializes dicts in insertion order and no canonical key ordering is
applied before hashing. -/
theorem hash_args_kwargs_order_dependent :
    (List.lookup "a" [("a", J.jint 1), ("b", J.jint 2)] =
      List.lookup "a" [("b", J.jint 2), ("a", J.jint 1)]) ∧
    (List.lookup "b" [("a", J.jint 1), ("b", J.jint 2)] =
      List.lookup "b" [("b", J.jint 2), ("a", J.jint 1)]) ∧
    hash_args "g" ⟨[], [("a", J.jint 1), ("b", J.jint 2)]⟩ ≠
      hash_args "g" ⟨[], [("b", J.jint 2), ("a", J.jint 1)]⟩ := by
  refine ⟨rfl, rfl, ?_⟩
  decide

/-! ## Stop-sequence truncation (`LMGenerator.update_instance_with_result`)

The Python loop runs `text = text.split(term)[0]` for each non-empty term
in `until`, in list order. `dropAfter sep text` is `text.split(sep)[0]`
for a non-empty separator: the prefix of `text` strictly before the first
occurrence of `sep`. `dropAfterAny` is the claim-side reading: the prefix
strictly before the first occurrence of any of the stop sequences. -/

def hasPrefixL : List Char → List Char → Bool
  | [], _ => true
  | _ :: _, [] => false
  | a :: as, b :: bs => a == b && hasPrefixL as bs

def dropAfter (sep : List Char) : List Char → List Char
  | [] => []
  | c :: rest => if hasPrefixL sep (c :: rest) then [] else c :: dropAfter sep rest

def applyStops (until0 : List (List Char)) (text : List Char) : List Char :=
  until0.foldl (fun t term => if 0 < term.length then dropAfter term t else t) text

def dropAfterAny (stops : List (List Char)) : List Char → List Char
  | [] => []
  | c :: rest =>
    if stops.any (fun s => 0 < s.length && hasPrefixL s (c :: rest)) then []
    else c :: dropAfterAny stops rest

def containsSub (sep : List Char) : List Char → Bool
  | [] => false
  | c :: rest => hasPrefixL sep (c :: rest) || containsSub sep rest

theorem hasPrefixL_append_mono (p : List Char) :
    ∀ a e, hasPrefixL p a = true → hasPrefixL p (a ++ e) = true := by
  induction p with
  | nil => intro a e _; rfl
  | cons x ps ih =>
    intro a e h
    cases a with
    | nil => exact absurd h (by simp [hasPrefixL])
    | cons y as =>
      simp only [hasPrefixL, Bool.and_eq_true] at h
      simp only [List.cons_append, hasPrefixL, Bool.and_eq_true]
      exact ⟨h.1, ih as e h.2⟩

theorem dropAfter_append_ext (sep : List Char) :
    ∀ t, ∃ ext, dropAfter sep t ++ ext = t := by
  intro t
  induction t with
  | nil => exact ⟨[], rfl⟩
  | cons c rest ih =>
    by_cases h : hasPrefixL sep (c :: rest) = true
    · exact ⟨c :: rest, by simp [dropAfter, h]⟩
    · obtain ⟨ext, hext⟩ := ih
      exact ⟨ext, by simp [dropAfter, h, hext]⟩

theorem containsSub_dropAfter_self (sep : List Char) (hs : 0 < sep.length) :
    ∀ t, containsSub sep (dropAfter sep t) = false := by
  intro t
  induction t with
  | nil => rfl
  | cons c rest ih =>
    by_cases h : hasPrefixL sep (c :: rest) = true
    · simp [dropAfter, h, containsSub]
    · simp only [dropAfter, h, if_false, Bool.false_eq_true]
      simp only [containsSub, Bool.or_eq_false_iff]
      refine ⟨?_, ih⟩
      by_contra hpre
      simp only [Bool.not_eq_false] at hpre
      apply h
      cases sep with
      | nil => simp at hs
      | cons s0 ss =>
        simp only [hasPrefixL, Bool.and_eq_true] at hpre ⊢
        refine ⟨hpre.1, ?_⟩
        obtain ⟨ext, hext⟩ := dropAfter_append_ext (s0 :: ss) rest
        rw [← hext]
        exact hasPrefixL_append_mono ss _ ext hpre.2

theorem dropAfter_of_not_contains (sep : List Char) :
    ∀ t, containsSub sep t = false → dropAfter sep t = t := by
  intro t
  induction t with
  | nil => intro _; rfl
  | cons c rest ih =>
    intro h
    simp only [containsSub, Bool.or_eq_false_iff] at h
    simp [dropAfter, h.1, ih h.2]

theorem dropAfter_eq_dropAfterAny_single (s : List Char) (hs : 0 < s.length) :
    ∀ t, dropAfter s t = dropAfterAny [s] t := by
  intro t
  induction t with
  | nil => rfl
  | cons c rest ih =>
    simp [dropAfter, dropAfterAny, hs, ih]

/-- C6 (amended): the result is obtained by cutting the text sequentially,
one stop sequence at a time in list order; for a single (non-empty) stop
sequence this equals the prefix strictly before its first occurrence, and
when no stop sequence occurs in the text the full text survives. The
order-dependent sequential cut differs from "first occurrence of any" on
overlapping stop sequences (see the counterexample). -/
theorem stop_truncation_sequential (s : List Char) (t : List Char)
    (stops : List (List Char)) :
    (0 < s.length → applyStops [s] t = dropAfterAny [s] t) ∧
    ((∀ u ∈ stops, containsSub u t = false) → applyStops stops t = t) := by
  constructor
  · intro hs
    simp only [applyStops, List.foldl_cons, List.foldl_nil, hs, if_pos]
    exact dropAfter_eq_dropAfterAny_single s hs t
  · intro hno
    induction stops with
    | nil => rfl
    | cons u us ih =>
      simp only [applyStops, List.foldl_cons]
      have hstep : (if 0 < u.length then dropAfter u t else t) = t := by
        by_cases hu : 0 < u.length
        · simp only [hu, if_pos]
          exact dropAfter_of_not_contains u t (hno u (by simp))
        · simp [hu]
      rw [hstep]
      exact ih (fun v hv => hno v (by simp [hv]))

theorem stop_truncation_sequential_witness :
    (applyStops [['.']] ("Hello world. Extra.".data) =
      dropAfterAny [['.']] ("Hello world. Extra.".data)) ∧
    applyStops [['.']] ("Hello world. Extra.".data) = "Hello world".data :=
  ⟨(stop_truncation_sequential ['.'] ("Hello world. Extra.".data) []).1 (by decide),
   by decide⟩

/-- C6 counterexample: with raw text "xaby" and stop sequences ["b", "ab"]
(in that order), the sequential cut yields "xa", while the prefix strictly
before the first occurrence of any stop sequence is "x" ("ab" occurs at
index 1, before "b" at index 2), so the claim's description of the result
fails on the code. -/
theorem stop_truncation_counterexample :
    applyStops [['b'], ['a', 'b']] ['x', 'a', 'b', 'y'] = ['x', 'a'] ∧
    dropAfterAny [['b'], ['a', 'b']] ['x', 'a', 'b', 'y'] = ['x'] := by
  decide

/-! ## Generation kwargs pipeline (`vLLMGenerator.generate_batch` lines
287-314 and `modify_gen_kwargs`)

Python dicts are association lists; `dictSet` is `d[k] = v` (replace in
place, else append), `dictMerge base upd` is `{**base, **upd}`, `dictPop`
is `d.pop(k, None)` returning the value and the remaining dict.
`prepGenKwargs` is the chunk kwargs-normalization: pop `stop_sequences`
into `until` (a string becomes a one-element list, a list of strings
stands, anything else is a `ValueError`, modelled as `none`), set
`max_tokens` to the generator's `max_gen_toks`, let `max_new_tokens`
override it, map `min_new_tokens` to `min_tokens`, and turn
`decoding_method` into the boolean `do_sample`. `finalizeUntil` appends
the decoded EOT text to the stop list (sole entry when none configured,
Python falsiness making an empty list count as none). -/

def dictSet : List (String × J) → String → J → List (String × J)
  | [], k, v => [(k, v)]
  | (k0, v0) :: rest, k, v =>
    if k0 == k then (k0, v) :: rest else (k0, v0) :: dictSet rest k v

def dictMerge (base upd : List (String × J)) : List (String × J) :=
  upd.foldl (fun d kv => dictSet d kv.1 kv.2) base

def dictPop : List (String × J) → String → Option J × List (String × J)
  | [], _ => (none, [])
  | (k0, v0) :: rest, k =>
    if k0 == k then (some v0, rest)
    else
      let pr := dictPop rest k
      (pr.1, (k0, v0) :: pr.2)

def jStrList : List J → Option (List (List Char))
  | [] => some []
  | J.jstr s :: rest => (jStrList rest).map (s.data :: ·)
  | _ :: _ => none

def extractUntil : Option J → Option (Option (List (List Char)))
  | none => some none
  | some (J.jstr s) => some (some [s.data])
  | some (J.jarr l) => (jStrList l).map some
  | some _ => none

def popMaxNew (d : List (String × J)) : List (String × J) :=
  match (dictPop d "max_new_tokens").1 with
  | some v => dictSet (dictPop d "max_new_tokens").2 "max_tokens" v
  | none => (dictPop d "max_new_tokens").2

def popMinNew (d : List (String × J)) : List (String × J) :=
  match (dictPop d "min_new_tokens").1 with
  | some v => dictSet (dictPop d "min_new_tokens").2 "min_tokens" v
  | none => (dictPop d "min_new_tokens").2

def popDecoding (d : List (String × J)) : List (String × J) :=
  match (dictPop d "decoding_method").1 with
  | some v =>
    dictSet (dictPop d "decoding_method").2 "do_sample"
      (J.jbool (match v with | J.jstr s => s == "sample" | _ => false))
  | none => (dictPop d "decoding_method").2

def prepKw (merged : List (String × J)) (maxGenToks : J) : List (String × J) :=
  popDecoding (popMinNew (popMaxNew
    (dictSet (dictPop merged "stop_sequences").2 "max_tokens" maxGenToks)))

def prepGenKwargs (merged : List (String × J)) (maxGenToks : J) :
    Option (List (String × J) × Option (List (List Char))) :=
  match extractUntil (dictPop merged "stop_sequences").1 with
  | none => none
  | some until0 => some (prepKw merged maxGenToks, until0)

def modify_gen_kwargs (kwargs : List (String × J)) : List (String × J) :=
  let p := dictPop kwargs "do_sample"
  let k2 := if (match p.1 with | some (J.jbool false) => true | _ => false) ||
      (List.lookup "temperature" p.2).isNone then
    dictSet p.2 "temperature" (J.jnum 0)
  else p.2
  let k3 := dictSet k2 "skip_special_tokens"
    (match List.lookup "skip_special_tokens" k2 with | some v => v | none => J.jbool false)
  dictSet k3 "spaces_between_special_tokens"
    (match List.lookup "spaces_between_special_tokens" k3 with
     | some v => v
     | none => J.jbool false)

def finalizeUntil (u : Option (List (List Char))) (eos : List Char) : List (List Char) :=
  match u with
  | none => [eos]
  | some [] => [eos]
  | some (s :: ss) => (s :: ss) ++ [eos]

/-! Association-list lemmas used to track single keys through the
pipeline. -/

theorem lookup_dictSet_self (k : String) (v : J) :
    ∀ d, List.lookup k (dictSet d k v) = some v := by
  intro d
  induction d with
  | nil => simp [dictSet, List.lookup]
  | cons kv rest ih =>
    obtain ⟨k0, v0⟩ := kv
    by_cases h : k0 == k
    · have hk : k0 = k := by simpa using h
      simp [dictSet, h, List.lookup, hk]
    · have hk : ¬ (k == k0) := by
        intro hc
        exact h (by simpa using (by simpa using hc : k = k0).symm)
      simp [dictSet, h, List.lookup, hk, ih]

theorem lookup_dictSet_other (k k' : String) (v : J) (hne : k' ≠ k) :
    ∀ d, List.lookup k' (dictSet d k v) = List.lookup k' d := by
  intro d
  have hne' : (k' == k) = false := by simpa using hne
  induction d with
  | nil => simp [dictSet, List.lookup, hne']
  | cons kv rest ih =>
    obtain ⟨k0, v0⟩ := kv
    by_cases h : k0 == k
    · have hk : k0 = k := by simpa using h
      subst hk
      have : ¬ (k' == k0) := by simpa using hne
      simp [dictSet, List.lookup, this]
    · simp only [dictSet, h, if_false, Bool.false_eq_true]
      by_cases h2 : k' == k0
      · simp [List.lookup, h2]
      · simp [List.lookup, h2, ih]

theorem dictPop_fst_eq_lookup (k : String) :
    ∀ d, (dictPop d k).1 = List.lookup k d := by
  intro d
  induction d with
  | nil => rfl
  | cons kv rest ih =>
    obtain ⟨k0, v0⟩ := kv
    by_cases h : k0 == k
    · have hk : k0 = k := by simpa using h
      subst hk
      simp [dictPop, List.lookup]
    · have hk : ¬ (k == k0) := by
        intro hc
        exact h (by simpa using (by simpa using hc : k = k0).symm)
      simp [dictPop, h, List.lookup, hk, ih]

theorem lookup_dictPop_other (k k' : String) (hne : k' ≠ k) :
    ∀ d, List.lookup k' (dictPop d k).2 = List.lookup k' d := by
  intro d
  induction d with
  | nil => rfl
  | cons kv rest ih =>
    obtain ⟨k0, v0⟩ := kv
    by_cases h : k0 == k
    · have hk : k0 = k := by simpa using h
      subst hk
      have : ¬ (k' == k0) := by simpa using hne
      simp [dictPop, List.lookup, this]
    · simp only [dictPop, h, if_false, Bool.false_eq_true]
      by_cases h2 : k' == k0
      · simp [List.lookup, h2]
      · simp [List.lookup, h2, ih]

theorem applyStops_append (l1 l2 : List (List Char)) (t : List Char) :
    applyStops (l1 ++ l2) t = applyStops l2 (applyStops l1 t) := by
  simp [applyStops, List.foldl_append]

theorem containsSub_applyStops_last (eos : List Char) (he : 0 < eos.length)
    (us : List (List Char)) (t : List Char) :
    containsSub eos (applyStops (us ++ [eos]) t) = false := by
  rw [applyStops_append]
  simp only [applyStops, List.foldl_cons, List.foldl_nil, he, if_pos]
  exact containsSub_dropAfter_self eos he _

/-- C10: the decoded end-of-text token string is always appended to the
stop-sequence list before the engine is invoked (and is the sole stop
sequence when none is configured), so every generated result is
additionally truncated at the EOT text: the final result contains no
occurrence of it. -/
theorem eos_always_appended (merged : List (String × J)) (mgt : J) (eos : List Char)
    (out : List (String × J)) (u : Option (List (List Char))) (t : List Char)
    (hp : prepGenKwargs merged mgt = some (out, u)) (he : eos ≠ []) :
    (finalizeUntil u eos).getLast? = some eos ∧
    (List.lookup "stop_sequences" merged = none → finalizeUntil u eos = [eos]) ∧
    containsSub eos (applyStops (finalizeUntil u eos) t) = false := by
  have hlen : 0 < eos.length := List.length_pos.mpr he
  refine ⟨?_, ?_, ?_⟩
  · cases u with
    | none => rfl
    | some us =>
      cases us with
      | nil => rfl
      | cons s ss =>
        show ((s :: ss) ++ [eos]).getLast? = some eos
        exact List.getLast?_concat _
  · intro hnone
    have hp1 : (dictPop merged "stop_sequences").1 = none := by
      rw [dictPop_fst_eq_lookup]; exact hnone
    unfold prepGenKwargs at hp
    rw [hp1] at hp
    simp only [extractUntil, Option.some.injEq, Prod.mk.injEq] at hp
    rw [← hp.2]
    rfl
  · cases u with
    | none => exact containsSub_applyStops_last eos hlen [] t
    | some us =>
      cases us with
      | nil => exact containsSub_applyStops_last eos hlen [] t
      | cons s ss => exact containsSub_applyStops_last eos hlen (s :: ss) t

theorem eos_always_appended_witness :
    (finalizeUntil (some [['x']]) ['E']).getLast? = some ['E'] ∧
    containsSub ['E']
      (applyStops (finalizeUntil (some [['x']]) ['E']) ("aEb".data)) = false :=
  ⟨(eos_always_appended [("stop_sequences", J.jstr "x")] (J.jint 5) ['E']
      [("max_tokens", J.jint 5)] (some [['x']]) ("aEb".data) rfl (by decide)).1,
   (eos_always_appended [("stop_sequences", J.jstr "x")] (J.jint 5) ['E']
      [("max_tokens", J.jint 5)] (some [['x']]) ("aEb".data) rfl (by decide)).2.2⟩

theorem lookup_dictMerge_not_mem (k : String) :
    ∀ upd d, (∀ kv ∈ upd, Prod.fst kv ≠ k) →
      List.lookup k (dictMerge d upd) = List.lookup k d := by
  intro upd
  induction upd with
  | nil => intro d _; rfl
  | cons kv rest ih =>
    intro d hmem
    show List.lookup k (dictMerge (dictSet d kv.1 kv.2) rest) = List.lookup k d
    rw [ih (dictSet d kv.1 kv.2) (fun x hx => hmem x (by simp [hx]))]
    exact lookup_dictSet_other kv.1 k kv.2 (fun he => hmem kv (by simp) he.symm) d

theorem lookup_dictMerge_override (k : String) (v : J) :
    ∀ req base, (req.map Prod.fst).Nodup → List.lookup k req = some v →
      List.lookup k (dictMerge base req) = some v := by
  intro req
  induction req with
  | nil => intro base _ h; cases h
  | cons kv rest ih =>
    intro base hnd hl
    obtain ⟨k0, v0⟩ := kv
    simp only [List.map_cons, List.nodup_cons] at hnd
    by_cases h : (k == k0) = true
    · have hk : k = k0 := by simpa using h
      subst hk
      have hv : v0 = v := by simpa [List.lookup] using hl
      subst hv
      show List.lookup k (dictMerge (dictSet base k v0) rest) = some v0
      rw [lookup_dictMerge_not_mem k rest (dictSet base k v0) ?_]
      · exact lookup_dictSet_self k v0 base
      · intro x hx he
        exact hnd.1 (he ▸ List.mem_map_of_mem Prod.fst hx)
    · have hl' : List.lookup k rest = some v := by
        simpa [List.lookup, h] using hl
      exact ih (dictSet base k0 v0) hnd.2 hl'

theorem lookup_popMaxNew_other (k' : String) (h1 : k' ≠ "max_tokens")
    (h2 : k' ≠ "max_new_tokens") (d : List (String × J)) :
    List.lookup k' (popMaxNew d) = List.lookup k' d := by
  unfold popMaxNew
  cases hm : (dictPop d "max_new_tokens").1 with
  | none => exact lookup_dictPop_other _ _ h2 d
  | some v => rw [lookup_dictSet_other _ _ _ h1, lookup_dictPop_other _ _ h2]

theorem lookup_popMinNew_other (k' : String) (h1 : k' ≠ "min_tokens")
    (h2 : k' ≠ "min_new_tokens") (d : List (String × J)) :
    List.lookup k' (popMinNew d) = List.lookup k' d := by
  unfold popMinNew
  cases hm : (dictPop d "min_new_tokens").1 with
  | none => exact lookup_dictPop_other _ _ h2 d
  | some v => rw [lookup_dictSet_other _ _ _ h1, lookup_dictPop_other _ _ h2]

theorem lookup_popDecoding_other (k' : String) (h1 : k' ≠ "do_sample")
    (h2 : k' ≠ "decoding_method") (d : List (String × J)) :
    List.lookup k' (popDecoding d) = List.lookup k' d := by
  unfold popDecoding
  cases hm : (dictPop d "decoding_method").1 with
  | none => exact lookup_dictPop_other _ _ h2 d
  | some v => rw [lookup_dictSet_other _ _ _ h1, lookup_dictPop_other _ _ h2]

theorem lookup_modify_other (k' : String) (h1 : k' ≠ "do_sample") (h2 : k' ≠ "temperature")
    (h3 : k' ≠ "skip_special_tokens") (h4 : k' ≠ "spaces_between_special_tokens")
    (d : List (String × J)) :
    List.lookup k' (modify_gen_kwargs d) = List.lookup k' d := by
  simp only [modify_gen_kwargs]
  rw [lookup_dictSet_other _ _ _ h4, lookup_dictSet_other _ _ _ h3]
  by_cases hc : ((match (dictPop d "do_sample").1 with
      | some (J.jbool false) => true
      | _ => false) ||
      (List.lookup "temperature" (dictPop d "do_sample").2).isNone) = true
  · rw [if_pos hc, lookup_dictSet_other _ _ _ h2, lookup_dictPop_other _ _ h1]
  · rw [if_neg hc, lookup_dictPop_other _ _ h1]

theorem modify_temperature_true_preserved (d : List (String × J)) (v : J)
    (hd : List.lookup "do_sample" d = some (J.jbool true))
    (ht : List.lookup "temperature" d = some v) :
    List.lookup "temperature" (modify_gen_kwargs d) = some v := by
  simp only [modify_gen_kwargs]
  rw [lookup_dictSet_other _ _ _ (by decide), lookup_dictSet_other _ _ _ (by decide)]
  have hp1 : (dictPop d "do_sample").1 = some (J.jbool true) := by
    rw [dictPop_fst_eq_lookup]; exact hd
  have ht2 : List.lookup "temperature" (dictPop d "do_sample").2 = some v := by
    rw [lookup_dictPop_other _ _ (by decide)]; exact ht
  rw [hp1, ht2]
  simp only [Option.isNone_some, Bool.or_false]
  rw [if_neg (by simp)]
  exact ht2

theorem modify_temperature_zero (d : List (String × J))
    (hc : (match List.lookup "do_sample" d with
        | some (J.jbool false) => true
        | _ => false) = true ∨
      List.lookup "temperature" d = none) :
    List.lookup "temperature" (modify_gen_kwargs d) = some (J.jnum 0) := by
  simp only [modify_gen_kwargs]
  rw [lookup_dictSet_other _ _ _ (by decide), lookup_dictSet_other _ _ _ (by decide)]
  have hcond : ((match (dictPop d "do_sample").1 with
      | some (J.jbool false) => true
      | _ => false) ||
      (List.lookup "temperature" (dictPop d "do_sample").2).isNone) = true := by
    rw [dictPop_fst_eq_lookup, lookup_dictPop_other _ _ (by decide)]
    rcases hc with hc | hc
    · rw [hc]; rfl
    · rw [hc]; simp
  rw [if_pos hcond]
  exact lookup_dictSet_self _ _ _

theorem prepKw_temperature (merged : List (String × J)) (mgt : J) :
    List.lookup "temperature" (prepKw merged mgt) = List.lookup "temperature" merged := by
  unfold prepKw
  rw [lookup_popDecoding_other _ (by decide) (by decide),
    lookup_popMinNew_other _ (by decide) (by decide),
    lookup_popMaxNew_other _ (by decide) (by decide),
    lookup_dictSet_other _ _ _ (by decide), lookup_dictPop_other _ _ (by decide)]

theorem prepKw_do_sample (merged : List (String × J)) (mgt : J) (dv : J) (b : Bool)
    (hb : (match dv with | J.jstr s => s == "sample" | _ => false) = b)
    (hd : List.lookup "decoding_method" merged = some dv) :
    List.lookup "do_sample" (prepKw merged mgt) = some (J.jbool b) := by
  unfold prepKw popDecoding
  have h6 : (dictPop (popMinNew (popMaxNew
      (dictSet (dictPop merged "stop_sequences").2 "max_tokens" mgt)))
      "decoding_method").1 = some dv := by
    rw [dictPop_fst_eq_lookup, lookup_popMinNew_other _ (by decide) (by decide),
      lookup_popMaxNew_other _ (by decide) (by decide),
      lookup_dictSet_other _ _ _ (by decide), lookup_dictPop_other _ _ (by decide)]
    exact hd
  rw [h6]
  cases dv <;> simp_all [lookup_dictSet_self]

theorem prepKw_max_tokens_override (merged : List (String × J)) (mgt v : J)
    (h : List.lookup "max_new_tokens" merged = some v) :
    List.lookup "max_tokens" (prepKw merged mgt) = some v := by
  unfold prepKw
  rw [lookup_popDecoding_other _ (by decide) (by decide),
    lookup_popMinNew_other _ (by decide) (by decide)]
  unfold popMaxNew
  have h2 : (dictPop (dictSet (dictPop merged "stop_sequences").2 "max_tokens" mgt)
      "max_new_tokens").1 = some v := by
    rw [dictPop_fst_eq_lookup, lookup_dictSet_other _ _ _ (by decide),
      lookup_dictPop_other _ _ (by decide)]
    exact h
  rw [h2]
  exact lookup_dictSet_self _ _ _

theorem prepKw_min_tokens (merged : List (String × J)) (mgt v : J)
    (h : List.lookup "min_new_tokens" merged = some v) :
    List.lookup "min_tokens" (prepKw merged mgt) = some v := by
  unfold prepKw
  rw [lookup_popDecoding_other _ (by decide) (by decide)]
  unfold popMinNew
  have h2 : (dictPop (popMaxNew (dictSet (dictPop merged "stop_sequences").2
      "max_tokens" mgt)) "min_new_tokens").1 = some v := by
    rw [dictPop_fst_eq_lookup, lookup_popMaxNew_other _ (by decide) (by decide),
      lookup_dictSet_other _ _ _ (by decide), lookup_dictPop_other _ _ (by decide)]
    exact h
  rw [h2]
  exact lookup_dictSet_self _ _ _

/-- C7 (amended): merging kwargs for a generation chunk: a key present in
the per-request kwargs overrides the same key in the defaults;
`max_new_tokens` overrides the generic `max_tokens` value; `min_new_tokens`
maps to the engine's `min_tokens`; `decoding_method == "sample"` keeps an
explicitly provided temperature (stochastic decoding), while any other
value forces temperature zero (greedy) — and, contrary to the original
claim, `"sample"` WITHOUT an explicit temperature also forces temperature
zero (see the counterexample). -/
theorem gen_kwargs_precedence (base req merged : List (String × J)) (k : String)
    (v dv τ mgt : J) :
    ((req.map Prod.fst).Nodup → List.lookup k req = some v →
      List.lookup k (dictMerge base req) = some v) ∧
    (List.lookup "max_new_tokens" merged = some v →
      List.lookup "max_tokens" (modify_gen_kwargs (prepKw merged mgt)) = some v) ∧
    (List.lookup "min_new_tokens" merged = some v →
      List.lookup "min_tokens" (modify_gen_kwargs (prepKw merged mgt)) = some v) ∧
    (List.lookup "decoding_method" merged = some (J.jstr "sample") →
      List.lookup "temperature" merged = some τ →
      List.lookup "temperature" (modify_gen_kwargs (prepKw merged mgt)) = some τ) ∧
    ((match dv with | J.jstr s => s == "sample" | _ => false) = false →
      List.lookup "decoding_method" merged = some dv →
      List.lookup "temperature" (modify_gen_kwargs (prepKw merged mgt)) =
        some (J.jnum 0)) ∧
    (List.lookup "decoding_method" merged = some (J.jstr "sample") →
      List.lookup "temperature" merged = none →
      List.lookup "temperature" (modify_gen_kwargs (prepKw merged mgt)) =
        some (J.jnum 0)) := by
  refine ⟨fun hnd hl => lookup_dictMerge_override k v req base hnd hl, ?_, ?_, ?_, ?_, ?_⟩
  · intro h
    rw [lookup_modify_other _ (by decide) (by decide) (by decide) (by decide)]
    exact prepKw_max_tokens_override merged mgt v h
  · intro h
    rw [lookup_modify_other _ (by decide) (by decide) (by decide) (by decide)]
    exact prepKw_min_tokens merged mgt v h
  · intro hd ht
    refine modify_temperature_true_preserved _ τ ?_ ?_
    · exact prepKw_do_sample merged mgt (J.jstr "sample") true (by rfl) hd
    · rw [prepKw_temperature]; exact ht
  · intro hmatch hd
    refine modify_temperature_zero _ (Or.inl ?_)
    rw [prepKw_do_sample merged mgt dv false hmatch hd]
  · intro hd ht
    refine modify_temperature_zero _ (Or.inr ?_)
    rw [prepKw_temperature]; exact ht

theorem gen_kwargs_precedence_witness :
    List.lookup "a" (dictMerge [("a", J.jint 1)] [("a", J.jint 2)]) = some (J.jint 2) ∧
    List.lookup "max_tokens"
      (modify_gen_kwargs (prepKw [("max_new_tokens", J.jint 7)] (J.jint 5))) =
      some (J.jint 7) ∧
    List.lookup "min_tokens"
      (modify_gen_kwargs (prepKw [("min_new_tokens", J.jint 3)] (J.jint 5))) =
      some (J.jint 3) ∧
    List.lookup "temperature"
      (modify_gen_kwargs (prepKw
        [("decoding_method", J.jstr "sample"), ("temperature", J.jnum 1)] (J.jint 5))) =
      some (J.jnum 1) ∧
    List.lookup "temperature"
      (modify_gen_kwargs (prepKw [("decoding_method", J.jstr "greedy")] (J.jint 5))) =
      some (J.jnum 0) :=
  ⟨(gen_kwargs_precedence [("a", J.jint 1)] [("a", J.jint 2)] [] "a"
      (J.jint 2) J.null J.null (J.jint 5)).1 (by simp) rfl,
   (gen_kwargs_precedence [] [] [("max_new_tokens", J.jint 7)] "a"
      (J.jint 7) J.null J.null (J.jint 5)).2.1 rfl,
   (gen_kwargs_precedence [] [] [("min_new_tokens", J.jint 3)] "a"
      (J.jint 3) J.null J.null (J.jint 5)).2.2.1 rfl,
   (gen_kwargs_precedence [] [] [("decoding_method", J.jstr "sample"),
      ("temperature", J.jnum 1)] "a" J.null J.null (J.jnum 1) (J.jint 5)).2.2.2.1 rfl rfl,
   (gen_kwargs_precedence [] [] [("decoding_method", J.jstr "greedy")] "a"
      J.null (J.jstr "greedy") J.null (J.jint 5)).2.2.2.2.1 (by decide) rfl⟩

/-- C7 counterexample: per-request kwargs with `decoding_method = "sample"`
and no temperature produce engine parameters with temperature 0 — greedy by
the claim's own reading of greedy as "deterministic, temperature-zero" —
refuting "a decoding_method value of sample yields stochastic decoding in
the engine parameters". -/
theorem sample_without_temperature_greedy :
    List.lookup "decoding_method" (dictMerge [] [("decoding_method", J.jstr "sample")]) =
      some (J.jstr "sample") ∧
    List.lookup "temperature"
      (modify_gen_kwargs
        (prepKw (dictMerge [] [("decoding_method", J.jstr "sample")]) (J.jint 5))) =
      some (J.jnum 0) :=
  ⟨rfl, rfl⟩

/-! ## Log-likelihood truncation (`vLLMGenerator._loglikelihood_tokens`
lines 358-368 and `_parse_logprobs` lines 430-437)

`pySliceFrom i l` is Python `l[i:]` including negative-index semantics;
`llInp` is `(context_enc + continuation_enc)[-max_length:]`; `llCtxlen` is
`len(context_enc) - max(0, len(context_enc) + len(continuation_enc) -
max_length)` as a Python int (possibly negative). The engine's
`prompt_logprobs` come in as one optional token-to-logprob map per input
token (the first is `None`); summing over a `None` map models the
`AttributeError` Python would raise. Logprob values live in any additive
type `W` (Python floats are not modelled). -/

def pySliceFrom {α : Type} (i : Int) (l : List α) : List α :=
  if 0 ≤ i then l.drop i.toNat else l.drop ((l.length + i).toNat)

def pyLastSlice {α : Type} (m : Nat) (l : List α) : List α :=
  if m = 0 then l else l.drop (l.length - m)

def llInp (M : Nat) (ctx cont : List Int) : List Int := pyLastSlice M (ctx ++ cont)

def llCtxlen (M : Nat) (ctx cont : List Int) : Int :=
  (ctx.length : Int) - max 0 ((ctx.length : Int) + (cont.length : Int) - (M : Int))

def sumLogprobs {W : Type} [Zero W] [Add W] : List (Int × Option (Int → W)) → Option W
  | [] => some 0
  | (tok, od) :: rest =>
    match od, sumLogprobs rest with
    | some d, some s => some (d tok + s)
    | _, _ => none

def parseLogprobs {W : Type} [Zero W] [Add W] (tokens : List Int)
    (dicts : List (Option (Int → W))) (ctxlen : Int) : Option W :=
  sumLogprobs ((pySliceFrom ctxlen tokens).zip (pySliceFrom ctxlen dicts))

def loglikelihoodOne {W : Type} [Zero W] [Add W] (M : Nat) (ctx cont : List Int)
    (dicts : List (Option (Int → W))) : Option W :=
  parseLogprobs (llInp M ctx cont) dicts (llCtxlen M ctx cont)

/-- C5 (amended): when the truncated prefix does not reach into the
continuation — the whole sequence fits, or fewer than `max_length` tokens
are continuation — the adjusted boundary makes the scored token slice
exactly the continuation, so the summed log-probabilities cover exactly
the continuation's tokens. When truncation removes the entire context and
part of the continuation, `ctxlen` goes negative and Python's
negative-index slicing scores a different set of tokens (see the
counterexample). -/
theorem ll_scored_tokens_exact (W : Type) [Zero W] [Add W] (M : Nat) (ctx cont : List Int)
    (dicts : List (Option (Int → W)))
    (h1 : 1 ≤ ctx.length)
    (h2 : ctx.length + cont.length ≤ M ∨ cont.length < M) :
    pySliceFrom (llCtxlen M ctx cont) (llInp M ctx cont) = cont ∧
    loglikelihoodOne M ctx cont dicts =
      sumLogprobs (cont.zip (pySliceFrom (llCtxlen M ctx cont) dicts)) := by
  have hM : M ≠ 0 := by rcases h2 with h | h <;> omega
  have hslice : pySliceFrom (llCtxlen M ctx cont) (llInp M ctx cont) = cont := by
    have hctx : llCtxlen M ctx cont =
        ((ctx.length - (ctx.length + cont.length - M) : Nat) : Int) := by
      simp only [llCtxlen]
      rcases h2 with h | h <;> omega
    have hinp : llInp M ctx cont = (ctx ++ cont).drop (ctx.length + cont.length - M) := by
      simp only [llInp, pyLastSlice, hM, if_false, List.length_append]
    rw [hctx, hinp]
    simp only [pySliceFrom, Int.natCast_nonneg, if_pos, Int.toNat_natCast]
    rw [List.drop_drop]
    have hsum : ctx.length + cont.length - M + (ctx.length - (ctx.length + cont.length - M)) =
        ctx.length := by
      rcases h2 with h | h <;> omega
    rw [hsum]
    exact List.drop_left ctx cont
  exact ⟨hslice, by simp only [loglikelihoodOne, parseLogprobs, hslice]⟩

theorem ll_scored_tokens_exact_witness :
    pySliceFrom (llCtxlen 4 [1, 2] [3, 4, 5]) (llInp 4 [1, 2] [3, 4, 5]) = [3, 4, 5] ∧
    loglikelihoodOne 4 [1, 2] [3, 4, 5]
        [none, some (fun t => t), some (fun t => t), some (fun t => t)] =
      sumLogprobs ([3, 4, 5].zip (pySliceFrom (llCtxlen 4 [1, 2] [3, 4, 5])
        [none, some (fun t => (t : Int)), some (fun t => t), some (fun t => t)])) :=
  ll_scored_tokens_exact Int 4 [1, 2] [3, 4, 5]
    [none, some (fun t => t), some (fun t => t), some (fun t => t)]
    (by decide) (Or.inr (by decide))

/-- C5 counterexample: `max_length = 3`, context `[1, 2]`, continuation
`[3, 4, 5, 6, 7]`. After left-truncation the remaining input is `[5, 6,
7]` — all continuation tokens — so the claim demands the sum to cover
them; but `ctxlen = -2` and Python's negative slicing scores only `[6,
7]`, summing 13 with the identity logprob map instead of covering
`[5, 6, 7]`. -/
theorem ll_overtruncation_counterexample :
    llCtxlen 3 [1, 2] [3, 4, 5, 6, 7] = -2 ∧
    llInp 3 [1, 2] [3, 4, 5, 6, 7] = [5, 6, 7] ∧
    pySliceFrom (llCtxlen 3 [1, 2] [3, 4, 5, 6, 7]) (llInp 3 [1, 2] [3, 4, 5, 6, 7]) =
      [6, 7] ∧
    pySliceFrom (llCtxlen 3 [1, 2] [3, 4, 5, 6, 7]) (llInp 3 [1, 2] [3, 4, 5, 6, 7]) ≠
      [5, 6, 7] ∧
    loglikelihoodOne 3 [1, 2] [3, 4, 5, 6, 7]
      [none, some (fun t => t), some (fun t => t)] = some (13 : Int) := by
  refine ⟨by decide, by decide, by decide, by decide, ?_⟩
  rfl

/-! ## Distributor / Undistributor (spec section 4.4)

Modelled from the spec: `distribute` is `more_itertools.distribute`, an
external collaborator specified at its interface — a deterministic
round-robin partition of the items into `n` interleaved ordered lists,
partition `i` holding items `i, i+n, i+2n, ...` — and `undistribute` is
`fms_sdg.generators.utils.undistribute`, repository code that is not under
`src/`: it flattens per-partition result lists back into the single
overall sequence by taking one element from each non-exhausted partition
per round (the spec's zip-longest-and-drop-fill reading). -/

def everyNth {α : Type} (n : Nat) : List α → List α
  | [] => []
  | x :: xs => x :: everyNth n (xs.drop (n - 1))
termination_by l => l.length
decreasing_by
  simp only [List.length_drop, List.length_cons]
  omega

def distribute {α : Type} (n : Nat) (l : List α) : List (List α) :=
  (List.range n).map (fun i => everyNth n (l.drop i))

theorem sumLen_tail_le {α : Type} : ∀ ls : List (List α),
    ((ls.map List.tail).map List.length).sum ≤ (ls.map List.length).sum := by
  intro ls
  induction ls with
  | nil => simp
  | cons x rest ih =>
    simp only [List.map_cons, List.sum_cons]
    have hx : x.tail.length ≤ x.length := by
      rw [List.length_tail]; omega
    omega

theorem sumLen_tail_lt {α : Type} (ls : List (List α)) (h : ls.all List.isEmpty = false) :
    ((ls.map List.tail).map List.length).sum < (ls.map List.length).sum := by
  induction ls with
  | nil => simp at h
  | cons x rest ih =>
    simp only [List.all_cons, Bool.and_eq_false_iff] at h
    simp only [List.map_cons, List.sum_cons]
    rcases h with h | h
    · have hx : x.tail.length < x.length := by
        cases x with
        | nil => simp [List.isEmpty] at h
        | cons y ys => simp
      have := sumLen_tail_le rest
      omega
    · have := ih h
      have hx : x.tail.length ≤ x.length := by rw [List.length_tail]; omega
      omega

def undistribute {α : Type} (ls : List (List α)) : List α :=
  if h : ls.all List.isEmpty = true then []
  else ls.filterMap List.head? ++ undistribute (ls.map List.tail)
termination_by (ls.map List.length).sum
decreasing_by
  exact sumLen_tail_lt ls (Bool.not_eq_true _ ▸ h)

theorem undistribute_step {α : Type} (ls : List (List α))
    (h : ls.all List.isEmpty = false) :
    undistribute ls = ls.filterMap List.head? ++ undistribute (ls.map List.tail) := by
  rw [undistribute]
  rw [dif_neg (by simp [h])]

theorem undistribute_all_empty {α : Type} (ls : List (List α))
    (h : ls.all List.isEmpty = true) :
    undistribute ls = [] := by
  rw [undistribute, dif_pos h]

theorem everyNth_head? {α : Type} (n : Nat) (t : List α) :
    (everyNth n t).head? = t.head? := by
  cases t <;> simp [everyNth]

theorem filterMap_getElem_range' {α : Type} (l : List α) :
    ∀ k a, List.filterMap (fun i => l[i]?) (List.range' a k) = (l.drop a).take k := by
  intro k
  induction k with
  | zero => intro a; simp
  | succ k ih =>
    intro a
    rw [show List.range' a (k + 1) = a :: List.range' (a + 1) k from List.range'_succ a k 1]
    by_cases ha : a < l.length
    · rw [List.drop_eq_getElem_cons ha]
      simp only [List.filterMap_cons, List.getElem?_eq_getElem ha, List.take_succ_cons]
      rw [ih (a + 1)]
    · have hge : l.length ≤ a := by omega
      rw [List.drop_eq_nil_of_le hge]
      simp only [List.filterMap_cons, List.getElem?_eq_none hge, List.take_nil]
      rw [ih (a + 1), List.drop_eq_nil_of_le (by omega), List.take_nil]

theorem distribute_heads {α : Type} (n : Nat) (l : List α) :
    (distribute n l).filterMap List.head? = l.take n := by
  unfold distribute
  rw [List.filterMap_map]
  have hpoint : ∀ i ∈ List.range n,
      (List.head? ∘ fun i => everyNth n (l.drop i)) i = l[i]? := by
    intro i _
    simp only [Function.comp_apply, everyNth_head?, List.head?_drop]
  rw [List.filterMap_congr hpoint]
  rw [List.range_eq_range', filterMap_getElem_range' l n 0, List.drop_zero]

theorem distribute_tails {α : Type} (n : Nat) (hn : 1 ≤ n) (l : List α) :
    (distribute n l).map List.tail = distribute n (l.drop n) := by
  unfold distribute
  rw [List.map_map]
  apply List.map_congr_left
  intro i _
  simp only [Function.comp_apply]
  cases hdrop : l.drop i with
  | nil =>
    have hlen : l.length ≤ i := by
      have := congrArg List.length hdrop
      simp only [List.length_drop, List.length_nil] at this
      omega
    rw [List.drop_drop, List.drop_eq_nil_of_le (by omega)]
    simp [everyNth, List.tail]
  | cons x xs =>
    have hxs : xs = l.drop (i + 1) := by
      have := congrArg List.tail hdrop
      rw [List.tail_drop] at this
      simpa using this.symm
    rw [everyNth, List.tail_cons, List.drop_drop]
    congr 1
    rw [hxs, List.drop_drop]
    congr 1
    omega

theorem distribute_not_all_empty {α : Type} (n : Nat) (hn : 1 ≤ n) (x : α) (xs : List α) :
    (distribute n (x :: xs)).all List.isEmpty = false := by
  rw [List.all_eq_false]
  refine ⟨everyNth n ((x :: xs).drop 0), ?_, ?_⟩
  · exact List.mem_map_of_mem _ (List.mem_range.mpr (by omega))
  · simp [everyNth]

/-- C8: for every `n ≥ 1` and every input list, `undistribute` applied to
the `n` interleaved partitions produced by `distribute n items` returns
exactly the original list. (Modelled from the spec: `distribute` is the
external `more_itertools.distribute` interface and `undistribute` is
repository code not under `src/`.) -/
theorem undistribute_distribute {α : Type} (n : Nat) (hn : 1 ≤ n) :
    ∀ l : List α, undistribute (distribute n l) = l := by
  suffices H : ∀ len, ∀ l : List α, l.length = len →
      undistribute (distribute n l) = l by
    exact fun l => H l.length l rfl
  intro len
  induction len using Nat.strong_induction_on with
  | _ len ih =>
    intro l hlen
    cases l with
    | nil =>
      apply undistribute_all_empty
      rw [List.all_eq_true]
      intro part hpart
      unfold distribute at hpart
      rcases List.mem_map.mp hpart with ⟨i, _, hi⟩
      rw [← hi]
      simp [everyNth]
    | cons x xs =>
      rw [undistribute_step _ (distribute_not_all_empty n hn x xs)]
      rw [distribute_heads, distribute_tails n hn]
      rw [ih ((x :: xs).drop n).length ?_ _ rfl]
      · exact List.take_append_drop n (x :: xs)
      · simp only [List.length_drop, List.length_cons]
        simp only [List.length_cons] at hlen
        omega

theorem undistribute_distribute_witness :
    undistribute (distribute 2 [1, 2, 3, 4, 5]) = [1, 2, 3, 4, 5] :=
  undistribute_distribute 2 (by decide) [1, 2, 3, 4, 5]
